import Mathlib

/-!
A shallow embedding of the quadrature component of deal.II
(header `base/include/base/quadrature.h`): the `Quadrature<dim>` data model,
the tensor-product constructor, the `QIterated` one-dimensional iteration
with endpoint merging, and the `QProjector` face/subface projections for
`dim = 2`.  The header only declares these operations; their bodies live in
`quadrature.cc`, which is not part of the tree, so the behaviour of each
operation is modelled from the specification (and from the extensive
documentation comments of the header itself).  Real numbers are modelled by
`ℚ` so that every definition is executable and every concrete instance can
be evaluated.
-/

/-- Error conditions of the quadrature component: the header declares
`ExcInvalidIndex` (index out of range), `ExcInvalidQuadratureFormula`,
`ExcSumOfWeightsNotOne`, and the spec adds the `UnsupportedDimension`
failure of the `Quadrature<0>` specialization. -/
inductive QuadErr where
  | indexOutOfRange
  | invalidFormula
  | weightSumMismatch
  | unsupportedDimension
  deriving DecidableEq

/-- The data model of `Quadrature<dim>`: an ordered list of
`dim`-dimensional quadrature points (`quadrature_points`) and an
index-aligned list of `weights`, with the structural invariant that the two
lists have the same length. -/
structure Quadrature (dim : Nat) where
  points : List (Fin dim → ℚ)
  weights : List ℚ
  h_len : points.length = weights.length

/-- The `n_quadrature_points` member: the number of quadrature points. -/
def Quadrature.n_quadrature_points {dim : Nat} (q : Quadrature dim) : Nat :=
  q.points.length

/-- Modelled from the spec: `quad_point(i)` returns the `i`-th stored point
and fails with an index-out-of-range error for `i ≥ n_quadrature_points`;
every query on the `Quadrature<0>` specialization fails unconditionally.
The body (in `quadrature.cc`) is missing from the tree. -/
def Quadrature.quad_point {dim : Nat} (q : Quadrature dim) (i : Nat) :
    Except QuadErr (Fin dim → ℚ) :=
  if dim = 0 then .error .unsupportedDimension
  else if h : i < q.points.length then .ok (q.points.get ⟨i, h⟩)
  else .error .indexOutOfRange

/-- Modelled from the spec: `weight(i)` returns the `i`-th stored weight and
fails with an index-out-of-range error for `i ≥ n_quadrature_points`; every
query on the `Quadrature<0>` specialization fails unconditionally.  The body
(in `quadrature.cc`) is missing from the tree. -/
def Quadrature.weight {dim : Nat} (q : Quadrature dim) (i : Nat) :
    Except QuadErr ℚ :=
  if dim = 0 then .error .unsupportedDimension
  else if h : i < q.weights.length then .ok (q.weights.get ⟨i, h⟩)
  else .error .indexOutOfRange

/-- Modelled from the spec: `get_quad_points()` returns the whole array of
quadrature points; on `Quadrature<0>` it fails unconditionally. -/
def Quadrature.get_quad_points {dim : Nat} (q : Quadrature dim) :
    Except QuadErr (List (Fin dim → ℚ)) :=
  if dim = 0 then .error .unsupportedDimension else .ok q.points

/-- Modelled from the spec: `get_weights()` returns the whole array of
weights; on `Quadrature<0>` it fails unconditionally. -/
def Quadrature.get_weights {dim : Nat} (q : Quadrature dim) :
    Except QuadErr (List ℚ) :=
  if dim = 0 then .error .unsupportedDimension else .ok q.weights

/-- Modelled from the spec: the constructor `Quadrature(n)` taking a point
count.  For `dim > 0` it allocates `n` (as yet default) points and weights,
to be filled by derived classes; the `Quadrature<0>` specialization ignores
its argument. -/
def Quadrature.ofCount (dim n : Nat) : Quadrature dim :=
  if dim = 0 then ⟨[], [], rfl⟩
  else ⟨List.replicate n (fun _ => 0), List.replicate n 0, by simp⟩

/-- C4: for every `Quadrature<D>` with `D ≥ 1` and every index `i`,
`quad_point(i)` and `weight(i)` succeed and return exactly the `i`-th stored
point/weight if and only if `i < n_quadrature_points`, and fail with the
index-out-of-range error exactly when `i ≥ n_quadrature_points` — the index
is never clamped. -/
theorem quad_point_weight_index_contract (d : Nat) (q : Quadrature (d + 1))
    (i : Nat) :
    ((∃ p, q.quad_point i = .ok p) ↔ i < q.n_quadrature_points) ∧
    ((∃ w, q.weight i = .ok w) ↔ i < q.n_quadrature_points) ∧
    (q.quad_point i = .error .indexOutOfRange ↔ q.n_quadrature_points ≤ i) ∧
    (q.weight i = .error .indexOutOfRange ↔ q.n_quadrature_points ≤ i) ∧
    (∀ p, q.quad_point i = .ok p → q.points[i]? = some p) ∧
    (∀ w, q.weight i = .ok w → q.weights[i]? = some w) := by
  have hq : q.quad_point i =
      if h : i < q.points.length then .ok (q.points.get ⟨i, h⟩)
      else .error .indexOutOfRange := by
    simp [Quadrature.quad_point]
  have hwq : q.weight i =
      if h : i < q.weights.length then .ok (q.weights.get ⟨i, h⟩)
      else .error .indexOutOfRange := by
    simp [Quadrature.weight]
  by_cases h : i < q.points.length
  · have h' : i < q.weights.length := q.h_len ▸ h
    rw [dif_pos h] at hq
    rw [dif_pos h'] at hwq
    refine ⟨?_, ?_, ?_, ?_, ?_, ?_⟩
    · simp [hq, Quadrature.n_quadrature_points, h]
    · simp [hwq, Quadrature.n_quadrature_points, h]
    · simp only [hq, Quadrature.n_quadrature_points]
      constructor
      · intro hc; cases hc
      · intro hc; omega
    · simp only [hwq, Quadrature.n_quadrature_points]
      constructor
      · intro hc; cases hc
      · intro hc; omega
    · intro p hp
      rw [hq] at hp
      cases hp
      exact List.getElem?_eq_getElem h
    · intro w hwk
      rw [hwq] at hwk
      cases hwk
      exact List.getElem?_eq_getElem h'
  · have h' : ¬ i < q.weights.length := by rw [← q.h_len]; exact h
    rw [dif_neg h] at hq
    rw [dif_neg h'] at hwq
    refine ⟨?_, ?_, ?_, ?_, ?_, ?_⟩
    · simp [hq, Quadrature.n_quadrature_points, h]
    · simp [hwq, Quadrature.n_quadrature_points, h]
    · simp only [hq, Quadrature.n_quadrature_points]
      constructor
      · intro _; omega
      · intro _; trivial
    · simp only [hwq, Quadrature.n_quadrature_points]
      constructor
      · intro _; omega
      · intro _; trivial
    · intro p hp
      rw [hq] at hp
      cases hp
    · intro w hwk
      rw [hwq] at hwk
      cases hwk

/-- C8: on the degenerate `Quadrature<0>` specialization every operation
fails unconditionally with the unsupported-dimension failure — point and
weight access for every index, and the full-sequence views — while the
constructor taking a point count ignores its argument (all counts give the
same value). -/
theorem quadrature_zero_all_fail (q : Quadrature 0) (i : Nat) :
    q.quad_point i = .error .unsupportedDimension ∧
    q.weight i = .error .unsupportedDimension ∧
    q.get_quad_points = .error .unsupportedDimension ∧
    q.get_weights = .error .unsupportedDimension ∧
    (∀ n m : Nat, Quadrature.ofCount 0 n = Quadrature.ofCount 0 m) := by
  refine ⟨?_, ?_, ?_, ?_, ?_⟩
  · simp [Quadrature.quad_point]
  · simp [Quadrature.weight]
  · simp [Quadrature.get_quad_points]
  · simp [Quadrature.get_weights]
  · intro n m
    simp [Quadrature.ofCount]

/-- Helper: the sum of a constant map is the length times the constant. -/
theorem sum_map_const_nat {α : Type} (l : List α) (c : Nat) :
    (l.map (fun _ => c)).sum = l.length * c := by
  induction l with
  | nil => simp
  | cons a t ih => simp [ih, Nat.succ_mul, Nat.add_comm]

/-- Helper: indexing into a `flatMap` whose blocks all have length `c`. -/
theorem flatMap_getElem_const_len {α β : Type} (l : List α) (f : α → List β)
    (c : Nat) (hc : ∀ a ∈ l, (f a).length = c) (j k : Nat)
    (hj : j < l.length) (hk : k < c) :
    (l.flatMap f)[j * c + k]? = (f (l.get ⟨j, hj⟩))[k]? := by
  induction l generalizing j with
  | nil => cases hj
  | cons a t ih =>
    cases j with
    | zero =>
      have ha : (f a).length = c := hc a (List.mem_cons_self a t)
      simp only [List.flatMap_cons, Nat.zero_mul, Nat.zero_add,
        List.getElem?_append, ha, hk, if_pos]
      rfl
    | succ j =>
      have ha : (f a).length = c := hc a (List.mem_cons_self a t)
      have hlen : (f a).length ≤ (j + 1) * c + k := by
        rw [ha]; calc c ≤ (j + 1) * c := Nat.le_mul_of_pos_left c (Nat.succ_pos j)
          _ ≤ (j + 1) * c + k := Nat.le_add_right _ _
      have hidx : (j + 1) * c + k - (f a).length = j * c + k := by
        rw [ha, Nat.succ_mul]; omega
      rw [List.flatMap_cons, List.getElem?_append_right hlen, hidx]
      have hj' : j < t.length := by simpa using Nat.lt_of_succ_lt_succ hj
      rw [ih (fun b hb => hc b (List.mem_cons_of_mem a hb)) j hj']
      rfl

/-- Helper: the point obtained by appending a last coordinate `y` to a
`d`-dimensional point `p`. -/
def tensorPoint {d : Nat} (p : Fin d → ℚ) (y : ℚ) : Fin (d + 1) → ℚ :=
  fun i => if h : (i : Nat) < d then p ⟨i, h⟩ else y

/-- Modelled from the spec: the point/weight pairs emitted by the
tensor-product constructor `Quadrature(lower, one)` — the outer loop runs
over the lower-dimensional rule, the inner loop over the one-dimensional
rule; every emitted point takes its first `d` coordinates from the lower
point and its last coordinate from the 1-D point, and its weight is the
product of the two weights (the constructor body in `quadrature.cc` is
missing from the tree). -/
def tensorPairs {d : Nat} (lower : Quadrature d) (one : Quadrature 1) :
    List ((Fin (d + 1) → ℚ) × ℚ) :=
  (lower.points.zip lower.weights).flatMap
    (fun pw => (one.points.zip one.weights).map
      (fun qv => (tensorPoint pw.1 (qv.1 0), pw.2 * qv.2)))

/-- Modelled from the spec: the tensor-product constructor
`Quadrature<dim>(const Quadrature<dim-1> &, const Quadrature<1> &)`. -/
def Quadrature.tensor {d : Nat} (lower : Quadrature d) (one : Quadrature 1) :
    Quadrature (d + 1) :=
  { points := (tensorPairs lower one).map Prod.fst
    weights := (tensorPairs lower one).map Prod.snd
    h_len := by simp }

/-- Helper: the zipped point/weight list of a quadrature has length
`n_quadrature_points`. -/
theorem length_zip_points_weights {d : Nat} (q : Quadrature d) :
    (q.points.zip q.weights).length = q.n_quadrature_points := by
  simp [List.length_zip, ← q.h_len, Quadrature.n_quadrature_points]

/-- Helper: the length of `tensorPairs` is the product of the two point
counts. -/
theorem length_tensorPairs {d : Nat} (lower : Quadrature d)
    (one : Quadrature 1) :
    (tensorPairs lower one).length =
      lower.n_quadrature_points * one.n_quadrature_points := by
  rw [tensorPairs, List.length_flatMap]
  have h1 : (List.map
      (List.length ∘ fun pw => (one.points.zip one.weights).map
        (fun qv => (tensorPoint pw.1 (qv.1 0), pw.2 * qv.2)))
      (lower.points.zip lower.weights)) =
      (lower.points.zip lower.weights).map
        (fun _ => one.n_quadrature_points) := by
    apply List.map_congr_left
    intro pw _
    simp only [Function.comp, List.length_map]
    exact length_zip_points_weights one
  rw [h1, sum_map_const_nat, length_zip_points_weights]

/-- C1: the tensor-product rule `Quadrature(lower, one)` has
`lower.n_points * one.n_points` points, emitted with the outer loop over
`lower` and the inner loop over `one`: the pair `(j, k)` lands at index
`j * one.n_points + k`, its first `d` coordinates are those of
`lower.point(j)`, its last coordinate is that of `one.point(k)`, and its
weight is `lower.weight(j) * one.weight(k)`. -/
theorem tensor_product_spec {d : Nat} (lower : Quadrature d)
    (one : Quadrature 1) (j k : Nat)
    (hj : j < lower.n_quadrature_points)
    (hk : k < one.n_quadrature_points) :
    (lower.tensor one).n_quadrature_points =
      lower.n_quadrature_points * one.n_quadrature_points ∧
    ∃ p pl po w wl wo,
      lower.points[j]? = some pl ∧ one.points[k]? = some po ∧
      lower.weights[j]? = some wl ∧ one.weights[k]? = some wo ∧
      (lower.tensor one).points[j * one.n_quadrature_points + k]? = some p ∧
      (lower.tensor one).weights[j * one.n_quadrature_points + k]? = some w ∧
      (∀ i : Fin d, p (Fin.castSucc i) = pl i) ∧
      p (Fin.last d) = po 0 ∧ w = wl * wo := by
  have hcount : (lower.tensor one).n_quadrature_points =
      lower.n_quadrature_points * one.n_quadrature_points := by
    show ((tensorPairs lower one).map Prod.fst).length = _
    rw [List.length_map, length_tensorPairs]
  refine ⟨hcount, ?_⟩
  have hj' : j < (lower.points.zip lower.weights).length := by
    rw [length_zip_points_weights]; exact hj
  have hk' : k < (one.points.zip one.weights).length := by
    rw [length_zip_points_weights]; exact hk
  set plw := (lower.points.zip lower.weights).get ⟨j, hj'⟩ with hplw
  set qv := (one.points.zip one.weights).get ⟨k, hk'⟩ with hqv
  have hzl : (lower.points.zip lower.weights)[j]? = some plw := by
    rw [List.getElem?_eq_getElem hj']; rw [hplw, List.get_eq_getElem]
  have hzo : (one.points.zip one.weights)[k]? = some qv := by
    rw [List.getElem?_eq_getElem hk']; rw [hqv, List.get_eq_getElem]
  have hl2 := List.getElem?_zip_eq_some.mp hzl
  have ho2 := List.getElem?_zip_eq_some.mp hzo
  have hpair : (tensorPairs lower one)[j * one.n_quadrature_points + k]? =
      some (tensorPoint plw.1 (qv.1 0), plw.2 * qv.2) := by
    rw [tensorPairs]
    rw [flatMap_getElem_const_len _ _ one.n_quadrature_points
      (by intro a _; rw [List.length_map, length_zip_points_weights]) j k hj' hk]
    rw [List.getElem?_map, hzo]
    rfl
  refine ⟨tensorPoint plw.1 (qv.1 0), plw.1, qv.1, plw.2 * qv.2, plw.2, qv.2,
    hl2.1, ho2.1, hl2.2, ho2.2, ?_, ?_, ?_, ?_, rfl⟩
  · show ((tensorPairs lower one).map Prod.fst)[_]? = _
    rw [List.getElem?_map, hpair]
    rfl
  · show ((tensorPairs lower one).map Prod.snd)[_]? = _
    rw [List.getElem?_map, hpair]
    rfl
  · intro i
    show tensorPoint plw.1 (qv.1 0) (Fin.castSucc i) = plw.1 i
    rw [tensorPoint]
    have hi : ((Fin.castSucc i : Fin (d + 1)) : Nat) < d := i.isLt
    rw [dif_pos hi]
    exact congrArg plw.1 (Fin.eta i hi)
  · show tensorPoint plw.1 (qv.1 0) (Fin.last d) = qv.1 0
    rw [tensorPoint]
    rw [dif_neg (by simp)]

/-- A concrete two-point rule on the unit interval (trapezoidal rule). -/
def exTrap : Quadrature 1 :=
  ⟨[fun _ => 0, fun _ => 1], [1/2, 1/2], rfl⟩

/-- A concrete one-point rule on the unit interval (midpoint rule). -/
def exMid : Quadrature 1 :=
  ⟨[fun _ => 1/2], [1], rfl⟩

/-- Witness for C1: the tensor product of the trapezoidal and midpoint
rules, evaluated at the index pair `(1, 0)`. -/
theorem tensor_product_spec_witness :
    (exTrap.tensor exMid).n_quadrature_points =
      exTrap.n_quadrature_points * exMid.n_quadrature_points ∧
    ∃ p pl po w wl wo,
      exTrap.points[1]? = some pl ∧ exMid.points[0]? = some po ∧
      exTrap.weights[1]? = some wl ∧ exMid.weights[0]? = some wo ∧
      (exTrap.tensor exMid).points[1 * exMid.n_quadrature_points + 0]? =
        some p ∧
      (exTrap.tensor exMid).weights[1 * exMid.n_quadrature_points + 0]? =
        some w ∧
      (∀ i : Fin 1, p (Fin.castSucc i) = pl i) ∧
      p (Fin.last 1) = po 0 ∧ w = wl * wo :=
  tensor_product_spec exTrap exMid 1 0 (by decide) (by decide)

/-- Modelled from the spec: the embedding of a face-local coordinate `x`
into the two-dimensional unit cell for face `face_no` of the reference
quadrilateral, following the header's documented examples — face 0 is the
edge `y = 0`, face 1 the edge `x = 1`, face 2 the edge `y = 1` and face 3
the edge `x = 0`, with face 1 traversed as `(1, x)` and face 3 as `(0, x)`
(the `QProjector` bodies in `quadrature.cc` are missing from the tree). -/
def faceEmbed2 (face_no : Nat) (x : ℚ) : Fin 2 → ℚ :=
  match face_no with
  | 0 => fun i => if i = 0 then x else 0
  | 1 => fun i => if i = 0 then 1 else x
  | 2 => fun i => if i = 0 then x else 1
  | _ => fun i => if i = 0 then 0 else x

/-- Modelled from the spec: `QProjector<2>::project_to_face` — embeds each
point of a one-dimensional rule into the given face of the unit square and
fails with an index-out-of-range error for `face_no ≥ 2 * dim = 4`. -/
def project_to_face2 (quadrature : Quadrature 1) (face_no : Nat) :
    Except QuadErr (List (Fin 2 → ℚ)) :=
  if face_no < 4 then
    .ok (quadrature.points.map (fun p => faceEmbed2 face_no (p 0)))
  else .error .indexOutOfRange

/-- Modelled from the spec: `QProjector<2>::project_to_subface` — first
rescales and translates the face-local coordinate onto child `subface_no`
of the face (`x ↦ (subface_no + x) / 2`), then embeds as for the full face;
fails with an index-out-of-range error for `face_no ≥ 4` or
`subface_no ≥ 2^(dim-1) = 2`. -/
def project_to_subface2 (quadrature : Quadrature 1)
    (face_no subface_no : Nat) : Except QuadErr (List (Fin 2 → ℚ)) :=
  if face_no < 4 ∧ subface_no < 2 then
    .ok (quadrature.points.map
      (fun p => faceEmbed2 face_no (((subface_no : ℚ) + p 0) / 2)))
  else .error .indexOutOfRange

/-- The coordinate of a two-dimensional point that runs along the extent of
face `face_no`: the `x`-coordinate on the horizontal faces 0 and 2, the
`y`-coordinate on the vertical faces 1 and 3. -/
def faceCoord2 (face_no : Nat) (pt : Fin 2 → ℚ) : ℚ :=
  if face_no = 0 ∨ face_no = 2 then pt 0 else pt 1

/-- Modelled from the spec: the embedding of a face-local point into the
`dim`-dimensional unit cell for face `face_no` — one axis is clamped to 0
or 1 (identifying which of the `2*dim` faces), and the remaining `dim - 1`
axes carry the input coordinates under a face-specific assignment.  The
spec fixes the assignment concretely only for `dim = 2`, where the header's
documented examples are followed (`faceEmbed2`); for the other dimensions
the convention is fixed and documented here: the clamped axis is
`face_no % dim`, clamped to 0 for `face_no < dim` and to 1 otherwise, and
the input coordinates fill the remaining axes in increasing order. -/
def faceEmbedD : (dim : Nat) → Nat → (Fin (dim - 1) → ℚ) → Fin dim → ℚ
  | 2, face_no, p => faceEmbed2 face_no (p 0)
  | dim, face_no, p => fun i =>
      if heq : (i : Nat) = face_no % dim then
        (if face_no < dim then 0 else 1)
      else if h : (i : Nat) < face_no % dim then
        p ⟨(i : Nat), by
          have hi := i.isLt
          have hm := Nat.mod_lt face_no (show 0 < dim by omega)
          omega⟩
      else
        p ⟨(i : Nat) - 1, by
          have hi := i.isLt
          have hm := Nat.mod_lt face_no (show 0 < dim by omega)
          omega⟩

/-- Modelled from the spec: `QProjector<dim>::project_to_face` for every
dimension — embeds each point of the `(dim-1)`-dimensional rule into face
`face_no` of the unit cell, and fails with an index-out-of-range error for
`face_no ≥ 2 * dim` (a `dim`-cube has `2 * dim` faces). -/
def project_to_face (dim : Nat) (quadrature : Quadrature (dim - 1))
    (face_no : Nat) : Except QuadErr (List (Fin dim → ℚ)) :=
  if face_no < 2 * dim then
    .ok (quadrature.points.map (fun p => faceEmbedD dim face_no p))
  else .error .indexOutOfRange

/-- Modelled from the spec: `QProjector<dim>::project_to_subface` for every
dimension — the face-local cube is first rescaled and translated onto child
`subface_no` of the face (the face is bisected along each of its `dim - 1`
axes, child `subface_no` taking offset bit `(subface_no / 2^a) % 2` on axis
`a`, so axis `a` maps `x ↦ (bit + x) / 2`), then embedded as for the full
face; fails with an index-out-of-range error for `face_no ≥ 2 * dim` or
`subface_no ≥ 2^(dim-1)`. -/
def project_to_subface (dim : Nat) (quadrature : Quadrature (dim - 1))
    (face_no subface_no : Nat) : Except QuadErr (List (Fin dim → ℚ)) :=
  if face_no < 2 * dim ∧ subface_no < 2 ^ (dim - 1) then
    .ok (quadrature.points.map (fun p => faceEmbedD dim face_no
      (fun a => ((((subface_no / 2 ^ (a : Nat)) % 2 : Nat) : ℚ) + p a) / 2)))
  else .error .indexOutOfRange

/-- C7: for every dimension `dim`, every `(dim-1)`-dimensional rule and
every pair of indices, `project_to_face` succeeds exactly for
`face_no < 2 * dim` and fails with the index-out-of-range error exactly
for `face_no ≥ 2 * dim`; `project_to_subface` succeeds exactly for
`face_no < 2 * dim` and `subface_no < 2^(dim-1)` and fails with the
index-out-of-range error otherwise. -/
theorem qprojector_index_contract (dim : Nat) (q : Quadrature (dim - 1))
    (face sub : Nat) :
    ((∃ pts, project_to_face dim q face = .ok pts) ↔ face < 2 * dim) ∧
    (project_to_face dim q face = .error .indexOutOfRange ↔
      2 * dim ≤ face) ∧
    ((∃ pts, project_to_subface dim q face sub = .ok pts) ↔
      face < 2 * dim ∧ sub < 2 ^ (dim - 1)) ∧
    (project_to_subface dim q face sub = .error .indexOutOfRange ↔
      2 * dim ≤ face ∨ 2 ^ (dim - 1) ≤ sub) := by
  by_cases hf : face < 2 * dim
  · by_cases hs : sub < 2 ^ (dim - 1)
    · refine ⟨?_, ?_, ?_, ?_⟩
      · simp [project_to_face, hf]
      · simp only [project_to_face, if_pos hf]
        constructor
        · intro hc; cases hc
        · intro hc; omega
      · simp [project_to_subface, hf, hs]
      · simp only [project_to_subface, if_pos (And.intro hf hs)]
        constructor
        · intro hc; cases hc
        · intro hc; omega
    · refine ⟨?_, ?_, ?_, ?_⟩
      · simp [project_to_face, hf]
      · simp only [project_to_face, if_pos hf]
        constructor
        · intro hc; cases hc
        · intro hc; omega
      · simp [project_to_subface, hs]
      · have hcond : ¬ (face < 2 * dim ∧ sub < 2 ^ (dim - 1)) :=
          fun hc => hs hc.2
        simp only [project_to_subface, if_neg hcond]
        constructor
        · intro _; omega
        · intro _; trivial
  · refine ⟨?_, ?_, ?_, ?_⟩
    · simp [project_to_face, hf]
    · simp only [project_to_face, if_neg hf]
      constructor
      · intro _; omega
      · intro _; trivial
    · simp [project_to_subface, hf]
    · have hcond : ¬ (face < 2 * dim ∧ sub < 2 ^ (dim - 1)) :=
        fun hc => hf hc.1
      simp only [project_to_subface, if_neg hcond]
      constructor
      · intro _; omega
      · intro _; trivial

/-- Helper: at `dim = 2` the dimension-generic face projection coincides
with the concrete two-dimensional model used by the header's examples. -/
theorem project_to_face_two (q : Quadrature 1) (face : Nat) :
    project_to_face 2 q face = project_to_face2 q face := by
  rw [project_to_face, project_to_face2]
  rfl

/-- Helper: at `dim = 2` the dimension-generic subface projection coincides
with the concrete two-dimensional model for every valid subface index. -/
theorem project_to_subface_two (q : Quadrature 1) (face sub : Nat)
    (hs : sub < 2) :
    project_to_subface 2 q face sub = project_to_subface2 q face sub := by
  rw [project_to_subface, project_to_subface2]
  by_cases hf : face < 4
  · rw [if_pos (And.intro (show face < 2 * 2 by omega)
      (show sub < 2 ^ (2 - 1) by omega)), if_pos (And.intro hf hs)]
    congr 1
    apply List.map_congr_left
    intro p _
    have h0 : sub / 2 ^ ((0 : Fin 1) : Nat) % 2 = sub := by
      norm_num
      exact hs
    show faceEmbed2 face
        ((((sub / 2 ^ ((0 : Fin 1) : Nat) % 2 : Nat) : ℚ) + p 0) / 2) =
      faceEmbed2 face (((sub : ℚ) + p 0) / 2)
    rw [h0]
  · have hcond1 : ¬ (face < 2 * 2 ∧ sub < 2 ^ (2 - 1)) := by
      intro hc
      exact hf (by omega)
    have hcond2 : ¬ (face < 4 ∧ sub < 2) := by
      intro hc
      exact hf hc.1
    rw [if_neg hcond1, if_neg hcond2]

/-- C3: projecting a 1-D rule with points `{0, 1/2, 1}` onto face 1 of the
unit square yields `(1,0), (1,1/2), (1,1)` in that order, and onto face 3
yields `(0,0), (0,1/2), (0,1)` in that order — the traversal sense of face
3 is reversed relative to face 1 (clockwise versus counterclockwise around
the cell). -/
theorem project_to_face_simpson_example (q : Quadrature 1)
    (hq : q.points.map (fun p => p 0) = [0, 1/2, 1]) :
    (∃ pts, project_to_face2 q 1 = .ok pts ∧
      pts.map (fun pt => (pt 0, pt 1)) = [(1, 0), (1, 1/2), (1, 1)]) ∧
    (∃ pts, project_to_face2 q 3 = .ok pts ∧
      pts.map (fun pt => (pt 0, pt 1)) = [(0, 0), (0, 1/2), (0, 1)]) := by
  have h1 : project_to_face2 q 1 =
      .ok (q.points.map (fun p => faceEmbed2 1 (p 0))) := by
    simp [project_to_face2]
  have h3 : project_to_face2 q 3 =
      .ok (q.points.map (fun p => faceEmbed2 3 (p 0))) := by
    simp [project_to_face2]
  refine ⟨⟨_, h1, ?_⟩, ⟨_, h3, ?_⟩⟩
  · rw [List.map_map]
    have hc : ((fun pt : Fin 2 → ℚ => (pt 0, pt 1)) ∘
        fun p : Fin 1 → ℚ => faceEmbed2 1 (p 0)) =
        ((fun x : ℚ => ((1 : ℚ), x)) ∘ fun p : Fin 1 → ℚ => p 0) := rfl
    rw [hc, ← List.map_map, hq]
    rfl
  · rw [List.map_map]
    have hc : ((fun pt : Fin 2 → ℚ => (pt 0, pt 1)) ∘
        fun p : Fin 1 → ℚ => faceEmbed2 3 (p 0)) =
        ((fun x : ℚ => ((0 : ℚ), x)) ∘ fun p : Fin 1 → ℚ => p 0) := rfl
    rw [hc, ← List.map_map, hq]
    rfl

/-- A concrete three-point rule on the unit interval (Simpson rule). -/
def exSimpson : Quadrature 1 :=
  ⟨[fun _ => 0, fun _ => 1/2, fun _ => 1], [1/6, 4/6, 1/6], rfl⟩

/-- Witness for C3: the Simpson rule projected onto faces 1 and 3. -/
theorem project_to_face_simpson_example_witness :
    (∃ pts, project_to_face2 exSimpson 1 = .ok pts ∧
      pts.map (fun pt => (pt 0, pt 1)) = [(1, 0), (1, 1/2), (1, 1)]) ∧
    (∃ pts, project_to_face2 exSimpson 3 = .ok pts ∧
      pts.map (fun pt => (pt 0, pt 1)) = [(0, 0), (0, 1/2), (0, 1)]) :=
  project_to_face_simpson_example exSimpson rfl

/-- C9: for every 1-D rule with points inside `[0,1]` and every valid face
of the unit square, the points produced by `project_to_subface` with
subface 0 lie in the first half of the face's extent and with subface 1 in
the second half (the face-local coordinate is rescaled to
`[sub/2, (sub+1)/2]`). -/
theorem project_to_subface_confinement (q : Quadrature 1) (face sub : Nat)
    (hq : ∀ p ∈ q.points, 0 ≤ p 0 ∧ p 0 ≤ 1)
    (hf : face < 4) (hs : sub < 2) :
    ∃ pts, project_to_subface2 q face sub = .ok pts ∧
      ∀ pt ∈ pts, (sub : ℚ) / 2 ≤ faceCoord2 face pt ∧
        faceCoord2 face pt ≤ ((sub : ℚ) + 1) / 2 := by
  have hok : project_to_subface2 q face sub =
      .ok (q.points.map
        (fun p => faceEmbed2 face (((sub : ℚ) + p 0) / 2))) := by
    simp [project_to_subface2, hf, hs]
  refine ⟨_, hok, ?_⟩
  intro pt hpt
  rcases List.mem_map.mp hpt with ⟨p, hp, rfl⟩
  rcases hq p hp with ⟨h0, h1⟩
  have hcoord : faceCoord2 face
      (faceEmbed2 face (((sub : ℚ) + p 0) / 2)) =
      ((sub : ℚ) + p 0) / 2 := by
    interval_cases face <;> rfl
  rw [hcoord]
  constructor
  · linarith
  · linarith

/-- Witness for C9: the Simpson rule on subface 0 of face 1. -/
theorem project_to_subface_confinement_witness :
    ∃ pts, project_to_subface2 exSimpson 1 0 = .ok pts ∧
      ∀ pt ∈ pts, ((0 : Nat) : ℚ) / 2 ≤ faceCoord2 1 pt ∧
        faceCoord2 1 pt ≤ (((0 : Nat) : ℚ) + 1) / 2 :=
  project_to_subface_confinement exSimpson 1 0
    (by intro p hp; fin_cases hp <;> constructor <;> norm_num)
    (by decide) (by decide)

/-- Modelled from the spec: `QIterated<dim>::uses_both_endpoints` — whether
the base formula has a quadrature point at the left end point 0 and one at
the right end point 1 of the unit interval (body in `quadrature.cc`,
missing from the tree). -/
def uses_both_endpoints (base_quadrature : Quadrature 1) : Bool :=
  (base_quadrature.points.any fun p => decide (p 0 = 0)) &&
  (base_quadrature.points.any fun p => decide (p 0 = 1))

/-- The coordinate/weight pairs of a one-dimensional rule, in storage
order. -/
def qpairs (q : Quadrature 1) : List (ℚ × ℚ) :=
  (q.points.map fun p => p 0).zip q.weights

/-- The total base weight sitting at the left end point 0. -/
def leftWeight (base : Quadrature 1) : ℚ :=
  (((qpairs base).filter fun pw => decide (pw.1 = 0)).map Prod.snd).sum

/-- Modelled from the spec: copy `k` of the base rule in the merging case —
every base point `x` is mapped to `(k + x) / n` and every weight `w` to
`w / n`; the left end point of every copy but the first is skipped (it
coincides with the previous copy's right end point), and the right end
point of every copy but the last absorbs the skipped point's weight, so a
merged interior point carries the sum of the two contributing weights. -/
def iterCopyMerged (base : Quadrature 1) (n k : Nat) : List (ℚ × ℚ) :=
  ((qpairs base).filter fun pw => decide (k = 0 ∨ pw.1 ≠ 0)).map
    fun pw => (((k : ℚ) + pw.1) / n,
      if pw.1 = 1 ∧ k + 1 < n then (pw.2 + leftWeight base) / n
      else pw.2 / n)

/-- Modelled from the spec: copy `k` of the base rule in the non-merging
case — every base point `x` is mapped to `(k + x) / n` and every weight `w`
to `w / n`, with no point skipped. -/
def iterCopyPlain (base : Quadrature 1) (n k : Nat) : List (ℚ × ℚ) :=
  (qpairs base).map fun pw => (((k : ℚ) + pw.1) / n, pw.2 / n)

/-- Modelled from the spec: the point/weight pairs of the iterated 1-D rule
— the concatenation over all copies `k = 0, …, n-1`, merging coincident
interior end points exactly when the base rule uses both end points. -/
def iterPairs (base : Quadrature 1) (n : Nat) : List (ℚ × ℚ) :=
  if uses_both_endpoints base then
    (List.range n).flatMap (iterCopyMerged base n)
  else
    (List.range n).flatMap (iterCopyPlain base n)

/-- Modelled from the spec: the 1-D `QIterated` constructor — fails with
the invalid-formula error on a base rule without points or on
`n_copies = 0`, builds the iterated pair list, and fails with the
sum-of-weights-not-one error when the resulting weights do not sum to 1
(exact rational arithmetic models the floating-point tolerance check). -/
def QIterated1 (base_quadrature : Quadrature 1) (n_copies : Nat) :
    Except QuadErr (Quadrature 1) :=
  if base_quadrature.n_quadrature_points = 0 ∨ n_copies = 0 then
    .error .invalidFormula
  else if ((iterPairs base_quadrature n_copies).map Prod.snd).sum = 1 then
    .ok { points := (iterPairs base_quadrature n_copies).map fun pw _ => pw.1
          weights := (iterPairs base_quadrature n_copies).map Prod.snd
          h_len := by simp }
  else .error .weightSumMismatch

/-- Helper: a point of the unit interval is determined by its single
coordinate. -/
theorem point1_eta (p : Fin 1 → ℚ) : (fun _ => p 0) = p := by
  funext i
  have hi : i = 0 := Subsingleton.elim i 0
  rw [hi]

/-- Helper: the first components of `qpairs` are the point coordinates. -/
theorem qpairs_map_fst (q : Quadrature 1) :
    (qpairs q).map Prod.fst = q.points.map fun p => p 0 := by
  apply List.map_fst_zip
  rw [List.length_map, q.h_len]

/-- Helper: the second components of `qpairs` are the weights. -/
theorem qpairs_map_snd (q : Quadrature 1) :
    (qpairs q).map Prod.snd = q.weights := by
  apply List.map_snd_zip
  rw [List.length_map, q.h_len]

/-- Helper: `qpairs` has length `n_quadrature_points`. -/
theorem length_qpairs (q : Quadrature 1) :
    (qpairs q).length = q.n_quadrature_points := by
  simp [qpairs, List.length_zip, ← q.h_len, Quadrature.n_quadrature_points]

/-- Helper: with a single copy, both the merging and the plain construction
reproduce the base pair list unchanged. -/
theorem iterPairs_one (base : Quadrature 1) :
    iterPairs base 1 = qpairs base := by
  have hplain : iterCopyPlain base 1 0 = qpairs base := by
    rw [iterCopyPlain]
    have : ∀ pw ∈ qpairs base,
        ((((0 : Nat) : ℚ) + pw.1) / ((1 : Nat) : ℚ), pw.2 / ((1 : Nat) : ℚ))
          = pw := by
      intro pw _
      cases pw with
      | mk a b => simp
    rw [List.map_congr_left this, List.map_id']
  have hmerged : iterCopyMerged base 1 0 = qpairs base := by
    rw [iterCopyMerged]
    have hfil : ((qpairs base).filter
        fun pw => decide ((0 : Nat) = 0 ∨ pw.1 ≠ 0)) = qpairs base := by
      apply List.filter_eq_self.mpr
      intro a _
      simp
    rw [hfil]
    have : ∀ pw ∈ qpairs base,
        ((((0 : Nat) : ℚ) + pw.1) / ((1 : Nat) : ℚ),
          if pw.1 = 1 ∧ 0 + 1 < 1 then (pw.2 + leftWeight base) / ((1 : Nat) : ℚ)
          else pw.2 / ((1 : Nat) : ℚ)) = pw := by
      intro pw _
      rw [if_neg (fun hc => absurd hc.2 (by omega))]
      cases pw with
      | mk a b => simp
    rw [List.map_congr_left this, List.map_id']
  rw [iterPairs]
  by_cases hub : uses_both_endpoints base
  · rw [if_pos hub]
    simp [List.range_succ, hmerged]
  · rw [if_neg hub]
    simp [List.range_succ, hplain]

/-- Helper: reconstructing the stored point list of an iterated rule from
its pair list gives back the base points when the pair list is `qpairs`. -/
theorem qpairs_map_point (base : Quadrature 1) :
    ((qpairs base).map fun pw => (fun _ => pw.1 : Fin 1 → ℚ)) =
      base.points := by
  have h1 : ((qpairs base).map fun pw => (fun _ => pw.1 : Fin 1 → ℚ)) =
      ((qpairs base).map Prod.fst).map
        (fun x => (fun _ => x : Fin 1 → ℚ)) := by
    rw [List.map_map]
    rfl
  rw [h1, qpairs_map_fst, List.map_map]
  have h2 : ∀ p ∈ base.points,
      ((fun x => (fun _ => x : Fin 1 → ℚ)) ∘ fun p : Fin 1 → ℚ => p 0) p
        = p := by
    intro p _
    exact point1_eta p
  rw [List.map_congr_left h2, List.map_id']

/-- C10: iterating a valid base rule (nonempty, weights summing to 1) with
a single copy returns a rule with exactly the base rule's points and
weights, whether or not the base rule samples both end points. -/
theorem qiterated_one_copy_identity (base : Quadrature 1)
    (hm : base.points ≠ []) (hs : base.weights.sum = 1) :
    ∃ q, QIterated1 base 1 = .ok q ∧ q.points = base.points ∧
      q.weights = base.weights := by
  have hcond : ¬ (base.n_quadrature_points = 0 ∨ (1 : Nat) = 0) := by
    rw [Quadrature.n_quadrature_points]
    simp [hm]
  have hsum : ((iterPairs base 1).map Prod.snd).sum = 1 := by
    rw [iterPairs_one, qpairs_map_snd, hs]
  refine ⟨{ points := (iterPairs base 1).map fun pw _ => pw.1
            weights := (iterPairs base 1).map Prod.snd
            h_len := by simp }, ?_, ?_, ?_⟩
  · rw [QIterated1, if_neg hcond, if_pos hsum]
  · show ((iterPairs base 1).map fun pw _ => pw.1) = base.points
    rw [iterPairs_one]
    exact qpairs_map_point base
  · show ((iterPairs base 1).map Prod.snd) = base.weights
    rw [iterPairs_one]
    exact qpairs_map_snd base

/-- Witness for C10: one copy of the Simpson rule is the Simpson rule. -/
theorem qiterated_one_copy_identity_witness :
    ∃ q, QIterated1 exSimpson 1 = .ok q ∧ q.points = exSimpson.points ∧
      q.weights = exSimpson.weights :=
  qiterated_one_copy_identity exSimpson (by simp [exSimpson])
    (by norm_num [exSimpson])

/-- Helper: summing a mapped `flatMap` block by block. -/
theorem sum_map_flatMap {α β : Type} (l : List α) (f : α → List β)
    (g : β → ℚ) :
    ((l.flatMap f).map g).sum = (l.map fun a => ((f a).map g).sum).sum := by
  induction l with
  | nil => rfl
  | cons a t ih =>
    simp [List.flatMap_cons, List.map_append, List.sum_append, ih]

/-- Helper: dividing every summand by a constant divides the sum. -/
theorem sum_map_div_const (l : List ℚ) (c : ℚ) :
    (l.map fun x => x / c).sum = l.sum / c := by
  induction l with
  | nil => simp
  | cons a t ih => simp [ih, add_div]

/-- Helper: the sum of a constant rational map. -/
theorem sum_map_const_rat {α : Type} (l : List α) (v : ℚ) :
    (l.map fun _ => v).sum = (l.length : ℚ) * v := by
  induction l with
  | nil => simp
  | cons a t ih =>
    simp [ih]
    ring

/-- Helper: the weights of one plain copy sum to the base sum divided by
the number of copies. -/
theorem iterCopyPlain_sum (base : Quadrature 1) (n k : Nat) :
    ((iterCopyPlain base n k).map Prod.snd).sum =
      base.weights.sum / (n : ℚ) := by
  rw [iterCopyPlain, List.map_map]
  have h1 : (Prod.snd ∘ fun pw : ℚ × ℚ =>
      (((k : ℚ) + pw.1) / (n : ℚ), pw.2 / (n : ℚ))) =
      ((fun x : ℚ => x / (n : ℚ)) ∘ Prod.snd) := rfl
  rw [h1, ← List.map_map, qpairs_map_snd, sum_map_div_const]

/-- Helper: one plain copy has as many pairs as the base rule has
points. -/
theorem iterCopyPlain_length (base : Quadrature 1) (n k : Nat) :
    (iterCopyPlain base n k).length = base.n_quadrature_points := by
  rw [iterCopyPlain, List.length_map, length_qpairs]

/-- C5: iterating a base rule that does not sample both end points is the
direct concatenation of the `n` mapped copies — `n * base.n_points` points,
copy `k` holding the base points mapped by `x ↦ (k + x)/n` at indices
`k * base.n_points + j` and the base weights mapped by `w ↦ w/n`. -/
theorem qiterated_no_endpoints_concat (base : Quadrature 1) (n : Nat)
    (hub : uses_both_endpoints base = false) (hn : 1 ≤ n)
    (hm : base.points ≠ []) (hs : base.weights.sum = 1) :
    ∃ q, QIterated1 base n = .ok q ∧
      q.n_quadrature_points = n * base.n_quadrature_points ∧
      ∀ k j x w, k < n → j < base.n_quadrature_points →
        (qpairs base)[j]? = some (x, w) →
        q.points[k * base.n_quadrature_points + j]? =
          some (fun _ => ((k : ℚ) + x) / (n : ℚ)) ∧
        q.weights[k * base.n_quadrature_points + j]? =
          some (w / (n : ℚ)) := by
  have hne : (n : ℚ) ≠ 0 := by
    have : n ≠ 0 := by omega
    exact_mod_cast this
  have hpairs : iterPairs base n = (List.range n).flatMap
      (iterCopyPlain base n) := by
    rw [iterPairs, hub]
    simp
  have hsum : ((iterPairs base n).map Prod.snd).sum = 1 := by
    rw [hpairs, sum_map_flatMap]
    have h1 : ((List.range n).map fun k =>
        ((iterCopyPlain base n k).map Prod.snd).sum) =
        (List.range n).map fun _ => base.weights.sum / (n : ℚ) := by
      apply List.map_congr_left
      intro k _
      exact iterCopyPlain_sum base n k
    rw [h1, sum_map_const_rat, List.length_range, hs]
    field_simp
  have hcond : ¬ (base.n_quadrature_points = 0 ∨ n = 0) := by
    rw [Quadrature.n_quadrature_points]
    simp [hm]
    omega
  refine ⟨{ points := (iterPairs base n).map fun pw _ => pw.1
            weights := (iterPairs base n).map Prod.snd
            h_len := by simp }, ?_, ?_, ?_⟩
  · rw [QIterated1, if_neg hcond, if_pos hsum]
  · show ((iterPairs base n).map fun pw _ => pw.1).length = _
    rw [List.length_map, hpairs, List.length_flatMap]
    have h1 : ((List.range n).map
        (List.length ∘ iterCopyPlain base n)) =
        (List.range n).map fun _ => base.n_quadrature_points := by
      apply List.map_congr_left
      intro k _
      exact iterCopyPlain_length base n k
    rw [h1, sum_map_const_nat, List.length_range]
  · intro k j x w hk hj hxw
    have hj' : j < (qpairs base).length := by
      rw [length_qpairs]; exact hj
    have hk' : k < (List.range n).length := by
      rw [List.length_range]; exact hk
    have hcopy : (iterPairs base n)[k * base.n_quadrature_points + j]? =
        some (((k : ℚ) + x) / (n : ℚ), w / (n : ℚ)) := by
      rw [hpairs, flatMap_getElem_const_len _ _ base.n_quadrature_points
        (fun a _ => iterCopyPlain_length base n a) k j hk' hj]
      have hget : (List.range n).get ⟨k, hk'⟩ = k := by
        simp
      rw [hget, iterCopyPlain, List.getElem?_map, hxw]
      rfl
    constructor
    · show ((iterPairs base n).map fun pw _ => pw.1)[_]? = _
      rw [List.getElem?_map, hcopy]
      rfl
    · show ((iterPairs base n).map Prod.snd)[_]? = _
      rw [List.getElem?_map, hcopy]
      rfl

/-- A concrete two-point rule avoiding both end points (two-point Gauss
positions replaced by 1/4 and 3/4 for exact rational arithmetic). -/
def exOpen : Quadrature 1 :=
  ⟨[fun _ => 1/4, fun _ => 3/4], [1/2, 1/2], rfl⟩

/-- Witness for C5: two copies of a rule that avoids the end points. -/
theorem qiterated_no_endpoints_concat_witness :
    ∃ q, QIterated1 exOpen 2 = .ok q ∧
      q.n_quadrature_points = 2 * exOpen.n_quadrature_points ∧
      ∀ k j x w, k < 2 → j < exOpen.n_quadrature_points →
        (qpairs exOpen)[j]? = some (x, w) →
        q.points[k * exOpen.n_quadrature_points + j]? =
          some (fun _ => ((k : ℚ) + x) / ((2 : Nat) : ℚ)) ∧
        q.weights[k * exOpen.n_quadrature_points + j]? =
          some (w / ((2 : Nat) : ℚ)) :=
  qiterated_no_endpoints_concat exOpen 2
    (by norm_num [uses_both_endpoints, exOpen]) (by decide)
    (by simp [exOpen]) (by norm_num [exOpen])

/-- Helper: a filter and its complement partition the length of a list. -/
theorem length_filter_not_add {α : Type} (l : List α) (p : α → Bool) :
    (l.filter p).length + (l.filter fun a => ! p a).length = l.length := by
  induction l with
  | nil => rfl
  | cons a t ih =>
    cases h : p a <;> simp [List.filter_cons, h] <;> omega

/-- Helper: a filter and its complement partition the sum of a mapped
list. -/
theorem sum_map_filter_not_add {α : Type} (l : List α) (p : α → Bool)
    (g : α → ℚ) :
    ((l.filter p).map g).sum + ((l.filter fun a => ! p a).map g).sum =
      (l.map g).sum := by
  induction l with
  | nil => simp
  | cons a t ih =>
    cases h : p a <;> simp [List.filter_cons, h] <;> rw [← ih] <;> ring

/-- Helper: summing an if-then-else map over a list whose filter by the
condition is a single element. -/
theorem sum_map_ite_onehot {α : Type} (l : List α) (P : α → Prop)
    [DecidablePred P] (f g : α → ℚ) (a0 : α)
    (hf : l.filter (fun a => decide (P a)) = [a0]) :
    (l.map fun a => if P a then f a else g a).sum =
      (l.map g).sum - g a0 + f a0 := by
  induction l with
  | nil => simp at hf
  | cons a t ih =>
    by_cases hP : P a
    · have h1 : a = a0 ∧ ∀ b ∈ t, ¬ P b := by
        rw [List.filter_cons] at hf
        simpa [hP] using hf
      have h3 : (t.map fun a => if P a then f a else g a) = t.map g := by
        apply List.map_congr_left
        intro b hb
        rw [if_neg (h1.2 b hb)]
      rw [List.map_cons, List.map_cons, List.sum_cons, List.sum_cons,
        if_pos hP, h3, h1.1]
      ring
    · have h1 : t.filter (fun a => decide (P a)) = [a0] := by
        rw [List.filter_cons] at hf
        simpa [hP] using hf
      rw [List.map_cons, List.map_cons, List.sum_cons, List.sum_cons,
        if_neg hP, ih h1]
      ring

/-- Helper: sums of pointwise combinations split. -/
theorem sum_map_add_sub {α : Type} (l : List α) (f g h : α → ℚ) :
    (l.map fun a => f a + g a - h a).sum =
      (l.map f).sum + (l.map g).sum - (l.map h).sum := by
  induction l with
  | nil => simp
  | cons a t ih => simp [ih]; ring

/-- Helper: a `flatMap` of blocks that are all empty is empty. -/
theorem flatMap_eq_nil_of {α β : Type} (l : List α) (f : α → List β)
    (h : ∀ a ∈ l, f a = []) : l.flatMap f = [] := by
  induction l with
  | nil => rfl
  | cons a t ih =>
    rw [List.flatMap_cons, h a (List.mem_cons_self a t),
      ih (fun b hb => h b (List.mem_cons_of_mem a hb))]
    rfl

/-- Helper: a `flatMap` over `range n` in which only the block at `k0`
is nonempty collapses to that block. -/
theorem range_flatMap_single {β : Type} (n : Nat) (g : Nat → List β)
    (k0 : Nat) (hk : k0 < n) (hg : ∀ j, j < n → j ≠ k0 → g j = []) :
    (List.range n).flatMap g = g k0 := by
  induction n with
  | zero => omega
  | succ n ih =>
    rw [List.range_succ, List.flatMap_append]
    by_cases hk0 : k0 = n
    · have h1 : (List.range n).flatMap g = [] := by
        apply flatMap_eq_nil_of
        intro a ha
        have ha' : a < n := List.mem_range.mp ha
        exact hg a (by omega) (by omega)
      rw [h1, hk0]
      simp
    · have h1 : (List.range n).flatMap g = g k0 :=
        ih (by omega) (fun j hj hne => hg j (by omega) hne)
      rw [h1, List.flatMap_cons]
      rw [hg n (by omega) (fun he => hk0 he.symm)]
      simp

/-- Helper: summing `v` over the copies that have a successor copy gives
`(n - 1) * v`. -/
theorem sum_range_boost (n : Nat) (hn : 1 ≤ n) (v : ℚ) :
    ((List.range n).map fun k => if k + 1 < n then v else 0).sum =
      ((n - 1 : Nat) : ℚ) * v := by
  have hsplit : n = (n - 1) + 1 := by omega
  rw [hsplit, List.range_succ, List.map_append, List.sum_append]
  have h1 : ((List.range (n - 1)).map
      fun k => if k + 1 < (n - 1) + 1 then v else 0) =
      (List.range (n - 1)).map fun _ => v := by
    apply List.map_congr_left
    intro k hk
    rw [if_pos (by have := List.mem_range.mp hk; omega)]
  rw [h1, sum_map_const_rat, List.length_range]
  simp

/-- Helper: summing `v` over the copies that have a predecessor copy gives
`(n - 1) * v`. -/
theorem sum_range_skip (n : Nat) (hn : 1 ≤ n) (v : ℚ) :
    ((List.range n).map fun k => if 0 < k then v else 0).sum =
      ((n - 1 : Nat) : ℚ) * v := by
  have hsplit : n = (n - 1) + 1 := by omega
  rw [hsplit, List.range_succ_eq_map, List.map_cons, List.sum_cons,
    List.map_map]
  have h1 : (List.range (n - 1)).map
      ((fun k => if 0 < k then v else 0) ∘ Nat.succ) =
      (List.range (n - 1)).map fun _ => v := by
    apply List.map_congr_left
    intro k _
    show (if 0 < k + 1 then v else 0) = v
    rw [if_pos (by omega)]
  rw [h1, sum_map_const_rat, List.length_range]
  simp

/-- Helper: in copy 0 nothing is skipped. -/
theorem iterFilter_zero (base : Quadrature 1) :
    ((qpairs base).filter fun pw => decide ((0 : Nat) = 0 ∨ pw.1 ≠ 0)) =
      qpairs base := by
  apply List.filter_eq_self.mpr
  intro a _
  simp

/-- Helper: in a copy with a predecessor exactly the points at the left
end point are skipped. -/
theorem iterFilter_pos (base : Quadrature 1) (k : Nat) (hk : 0 < k) :
    ((qpairs base).filter fun pw => decide (k = 0 ∨ pw.1 ≠ 0)) =
      (qpairs base).filter fun pw => ! decide (pw.1 = 0) := by
  apply List.filter_congr
  intro a _
  by_cases h : a.1 = 0
  · simp [h]
    omega
  · have hyes : k = 0 ∨ a.1 ≠ 0 := Or.inr h
    simp [hyes, h]

/-- Helper: under a unique left end point the merged extra weight is that
point's weight. -/
theorem leftWeight_eq (base : Quadrature 1) (w0 : ℚ)
    (H0 : (qpairs base).filter (fun pw => decide (pw.1 = 0)) = [(0, w0)]) :
    leftWeight base = w0 := by
  rw [leftWeight, H0]
  simp

/-- Helper: the filtered base list of one merged copy, restricted to the
right end point, is exactly the unique right end point pair. -/
theorem iterFilter_right (base : Quadrature 1) (k : Nat) (w1 : ℚ)
    (H1 : (qpairs base).filter (fun pw => decide (pw.1 = 1)) = [(1, w1)]) :
    (((qpairs base).filter fun pw => decide (k = 0 ∨ pw.1 ≠ 0)).filter
      fun pw => decide (pw.1 = 1)) = [(1, w1)] := by
  rcases Nat.eq_zero_or_pos k with hk | hk
  · subst hk
    rw [iterFilter_zero, H1]
  · rw [iterFilter_pos base k hk, List.filter_filter]
    have hcongr : ((qpairs base).filter
        fun a => decide (a.1 = 1) && ! decide (a.1 = 0)) =
        (qpairs base).filter fun a => decide (a.1 = 1) := by
      apply List.filter_congr
      intro a _
      by_cases h : a.1 = 1
      · have h0 : a.1 ≠ 0 := by rw [h]; norm_num
        simp [h, h0]
      · simp [h]
    rw [hcongr, H1]

/-- Helper: the weight sum of one merged copy — `S/n`, plus the absorbed
left-end weight when a successor copy exists, minus the skipped left-end
weight when a predecessor copy exists. -/
theorem iterCopyMerged_sum (base : Quadrature 1) (n k : Nat) (w0 w1 : ℚ)
    (H0 : (qpairs base).filter (fun pw => decide (pw.1 = 0)) = [(0, w0)])
    (H1 : (qpairs base).filter (fun pw => decide (pw.1 = 1)) = [(1, w1)]) :
    ((iterCopyMerged base n k).map Prod.snd).sum =
      base.weights.sum / (n : ℚ)
        + (if k + 1 < n then leftWeight base / (n : ℚ) else 0)
        - (if 0 < k then leftWeight base / (n : ℚ) else 0) := by
  rw [iterCopyMerged, List.map_map]
  have hcomp : (Prod.snd ∘ fun pw : ℚ × ℚ =>
      (((k : ℚ) + pw.1) / (n : ℚ),
        if pw.1 = 1 ∧ k + 1 < n then (pw.2 + leftWeight base) / (n : ℚ)
        else pw.2 / (n : ℚ))) =
      fun pw : ℚ × ℚ =>
        if pw.1 = 1 ∧ k + 1 < n then (pw.2 + leftWeight base) / (n : ℚ)
        else pw.2 / (n : ℚ) := rfl
  rw [hcomp]
  have hSF : (((qpairs base).filter
      fun pw => decide (k = 0 ∨ pw.1 ≠ 0)).map
        fun pw : ℚ × ℚ => pw.2 / (n : ℚ)).sum =
      base.weights.sum / (n : ℚ)
        - (if 0 < k then leftWeight base / (n : ℚ) else 0) := by
    have hall : ((qpairs base).map fun pw : ℚ × ℚ => pw.2 / (n : ℚ)).sum =
        base.weights.sum / (n : ℚ) := by
      have h1 : ((qpairs base).map fun pw : ℚ × ℚ => pw.2 / (n : ℚ)) =
          ((qpairs base).map Prod.snd).map fun x => x / (n : ℚ) := by
        rw [List.map_map]
        rfl
      rw [h1, qpairs_map_snd, sum_map_div_const]
    rcases Nat.eq_zero_or_pos k with hk | hk
    · subst hk
      rw [iterFilter_zero, hall]
      simp
    · rw [iterFilter_pos base k hk, if_pos hk]
      have hpart := sum_map_filter_not_add (qpairs base)
        (fun pw : ℚ × ℚ => decide (pw.1 = 0))
        (fun pw : ℚ × ℚ => pw.2 / (n : ℚ))
      rw [H0, hall] at hpart
      have h0sum : ([((0 : ℚ), w0)].map
          fun pw : ℚ × ℚ => pw.2 / (n : ℚ)).sum = w0 / (n : ℚ) := by
        simp
      rw [h0sum] at hpart
      rw [leftWeight_eq base w0 H0]
      linarith
  by_cases hc : k + 1 < n
  · have hcongr : (((qpairs base).filter
        fun pw => decide (k = 0 ∨ pw.1 ≠ 0)).map
        fun pw : ℚ × ℚ =>
          if pw.1 = 1 ∧ k + 1 < n then (pw.2 + leftWeight base) / (n : ℚ)
          else pw.2 / (n : ℚ)) =
        ((qpairs base).filter
          fun pw => decide (k = 0 ∨ pw.1 ≠ 0)).map
          fun pw : ℚ × ℚ =>
            if pw.1 = 1 then (pw.2 + leftWeight base) / (n : ℚ)
            else pw.2 / (n : ℚ) := by
      apply List.map_congr_left
      intro a _
      by_cases h1 : a.1 = 1
      · rw [if_pos ⟨h1, hc⟩, if_pos h1]
      · rw [if_neg (fun hcc => h1 hcc.1), if_neg h1]
    rw [hcongr]
    rw [sum_map_ite_onehot _ _ _ _ ((1 : ℚ), w1)
      (iterFilter_right base k w1 H1)]
    rw [hSF, if_pos hc]
    ring
  · have hcongr : (((qpairs base).filter
        fun pw => decide (k = 0 ∨ pw.1 ≠ 0)).map
        fun pw : ℚ × ℚ =>
          if pw.1 = 1 ∧ k + 1 < n then (pw.2 + leftWeight base) / (n : ℚ)
          else pw.2 / (n : ℚ)) =
        ((qpairs base).filter
          fun pw => decide (k = 0 ∨ pw.1 ≠ 0)).map
          fun pw : ℚ × ℚ => pw.2 / (n : ℚ) := by
      apply List.map_congr_left
      intro a _
      rw [if_neg (fun hcc => hc hcc.2)]
    rw [hcongr, hSF, if_neg hc]
    ring

/-- Helper: the merged iterated weights conserve the base weight sum. -/
theorem iterPairs_merged_sum (base : Quadrature 1) (n : Nat) (w0 w1 : ℚ)
    (hn : 1 ≤ n) (hub : uses_both_endpoints base = true)
    (H0 : (qpairs base).filter (fun pw => decide (pw.1 = 0)) = [(0, w0)])
    (H1 : (qpairs base).filter (fun pw => decide (pw.1 = 1)) = [(1, w1)]) :
    ((iterPairs base n).map Prod.snd).sum = base.weights.sum := by
  have hne : (n : ℚ) ≠ 0 := by
    have hne' : n ≠ 0 := by omega
    exact_mod_cast hne'
  rw [iterPairs, if_pos hub, sum_map_flatMap]
  have h1 : ((List.range n).map fun k =>
      ((iterCopyMerged base n k).map Prod.snd).sum) =
      (List.range n).map fun k =>
        base.weights.sum / (n : ℚ)
          + (if k + 1 < n then leftWeight base / (n : ℚ) else 0)
          - (if 0 < k then leftWeight base / (n : ℚ) else 0) := by
    apply List.map_congr_left
    intro k _
    exact iterCopyMerged_sum base n k w0 w1 H0 H1
  rw [h1, sum_map_add_sub, sum_map_const_rat, List.length_range,
    sum_range_boost n hn, sum_range_skip n hn]
  field_simp

/-- Helper: the length of one merged copy — all base points, minus the
skipped left end point on every copy with a predecessor. -/
theorem iterCopyMerged_length (base : Quadrature 1) (n k : Nat) (w0 : ℚ)
    (H0 : (qpairs base).filter (fun pw => decide (pw.1 = 0)) = [(0, w0)]) :
    (iterCopyMerged base n k).length =
      base.n_quadrature_points - (if 0 < k then 1 else 0) := by
  rw [iterCopyMerged, List.length_map]
  rcases Nat.eq_zero_or_pos k with hk | hk
  · subst hk
    rw [iterFilter_zero, length_qpairs]
    simp
  · rw [iterFilter_pos base k hk, if_pos hk]
    have hpart := length_filter_not_add (qpairs base)
      (fun pw : ℚ × ℚ => decide (pw.1 = 0))
    rw [H0, length_qpairs] at hpart
    simp at hpart
    omega

/-- Helper: the merged iterated rule has `n * (m - 1) + 1` pairs. -/
theorem iterPairs_merged_length (base : Quadrature 1) (n : Nat) (w0 : ℚ)
    (hn : 1 ≤ n) (hm : 1 ≤ base.n_quadrature_points)
    (hub : uses_both_endpoints base = true)
    (H0 : (qpairs base).filter (fun pw => decide (pw.1 = 0)) = [(0, w0)]) :
    (iterPairs base n).length =
      n * (base.n_quadrature_points - 1) + 1 := by
  rw [iterPairs, if_pos hub, List.length_flatMap]
  have h1 : ((List.range n).map (List.length ∘ iterCopyMerged base n)) =
      (List.range n).map fun k =>
        base.n_quadrature_points - (if 0 < k then 1 else 0) := by
    apply List.map_congr_left
    intro k _
    exact iterCopyMerged_length base n k w0 H0
  rw [h1]
  have hsplit : n = (n - 1) + 1 := by omega
  rw [hsplit, List.range_succ_eq_map, List.map_cons, List.sum_cons,
    List.map_map]
  have h2 : (List.range (n - 1)).map
      ((fun k => base.n_quadrature_points - (if 0 < k then 1 else 0)) ∘
        Nat.succ) =
      (List.range (n - 1)).map fun _ => base.n_quadrature_points - 1 := by
    apply List.map_congr_left
    intro k _
    show base.n_quadrature_points - (if 0 < k + 1 then 1 else 0) = _
    rw [if_pos (by omega)]
  rw [h2, sum_map_const_nat, List.length_range, Nat.succ_mul,
    if_neg (lt_irrefl 0)]
  generalize (n - 1) * (base.n_quadrature_points - 1) = P
  omega

/-- Helper: the plain iterated weights conserve the base weight sum. -/
theorem iterPairs_plain_sum (base : Quadrature 1) (n : Nat) (hn : 1 ≤ n)
    (hub : uses_both_endpoints base = false) :
    ((iterPairs base n).map Prod.snd).sum = base.weights.sum := by
  have hne : (n : ℚ) ≠ 0 := by
    have hne' : n ≠ 0 := by omega
    exact_mod_cast hne'
  rw [iterPairs, hub]
  simp only [Bool.false_eq_true, if_false]
  rw [sum_map_flatMap]
  have h1 : ((List.range n).map fun k =>
      ((iterCopyPlain base n k).map Prod.snd).sum) =
      (List.range n).map fun _ => base.weights.sum / (n : ℚ) := by
    apply List.map_congr_left
    intro k _
    exact iterCopyPlain_sum base n k
  rw [h1, sum_map_const_rat, List.length_range]
  field_simp

/-- Helper: if some base point sits at coordinate `c` and at most one pair
of the base rule does, then the filter at `c` is a singleton at `c`. -/
theorem filter_singleton_of_any (base : Quadrature 1) (c : ℚ)
    (hany : (base.points.any fun p => decide (p 0 = c)) = true)
    (hle : ((qpairs base).filter fun pw => decide (pw.1 = c)).length ≤ 1) :
    ∃ w, (qpairs base).filter (fun pw => decide (pw.1 = c)) = [(c, w)] := by
  rcases List.any_eq_true.mp hany with ⟨p, hp, hpc⟩
  have hpc' : p 0 = c := of_decide_eq_true hpc
  rcases List.getElem_of_mem hp with ⟨i, hi, hgi⟩
  have hi' : i < (qpairs base).length := by
    rw [length_qpairs]
    exact hi
  have hiw : i < base.weights.length := by
    rw [← base.h_len]
    exact hi
  have him : i < (base.points.map fun p => p 0).length := by
    rw [List.length_map]
    exact hi
  have hval : ((qpairs base).get ⟨i, hi'⟩).1 = c := by
    have hzip : (qpairs base).get ⟨i, hi'⟩ =
        ((base.points.map fun p => p 0)[i], base.weights[i]) := by
      rw [List.get_eq_getElem]
      exact List.getElem_zip
    rw [hzip]
    show (base.points.map fun p => p 0)[i] = c
    rw [List.getElem_map, hgi]
    exact hpc'
  have hmemf : (qpairs base).get ⟨i, hi'⟩ ∈
      (qpairs base).filter (fun pw => decide (pw.1 = c)) := by
    apply List.mem_filter.mpr
    refine ⟨?_, by rw [hval]; simp⟩
    rw [List.get_eq_getElem]
    exact List.getElem_mem hi'
  have hpos : 0 <
      ((qpairs base).filter fun pw => decide (pw.1 = c)).length :=
    List.length_pos.mpr (List.ne_nil_of_mem hmemf)
  have hlen1 :
      ((qpairs base).filter fun pw => decide (pw.1 = c)).length = 1 :=
    Nat.le_antisymm hle hpos
  rcases List.length_eq_one.mp hlen1 with ⟨a, ha⟩
  have haf : a ∈ (qpairs base).filter (fun pw => decide (pw.1 = c)) := by
    rw [ha]
    exact List.mem_singleton_self a
  have ha1 : a.1 = c := of_decide_eq_true (List.mem_filter.mp haf).2
  exact ⟨a.2, by rw [ha, @Prod.ext ℚ ℚ a (c, a.2) ha1 rfl]⟩

/-- Helper: unique end-point filters force `uses_both_endpoints`. -/
theorem uses_both_of_filters (base : Quadrature 1) (w0 w1 : ℚ)
    (H0 : (qpairs base).filter (fun pw => decide (pw.1 = 0)) = [(0, w0)])
    (H1 : (qpairs base).filter (fun pw => decide (pw.1 = 1)) = [(1, w1)]) :
    uses_both_endpoints base = true := by
  rw [uses_both_endpoints, Bool.and_eq_true]
  constructor
  · rw [List.any_eq_true]
    have hmem : ((0 : ℚ), w0) ∈
        (qpairs base).filter (fun pw => decide (pw.1 = 0)) := by
      rw [H0]
      exact List.mem_singleton_self _
    have hq : ((0 : ℚ), w0) ∈ qpairs base := (List.mem_filter.mp hmem).1
    have h0 : (0 : ℚ) ∈ base.points.map fun p => p 0 :=
      (List.of_mem_zip hq).1
    rcases List.mem_map.mp h0 with ⟨p, hp, hp0⟩
    exact ⟨p, hp, by rw [hp0]; simp⟩
  · rw [List.any_eq_true]
    have hmem : ((1 : ℚ), w1) ∈
        (qpairs base).filter (fun pw => decide (pw.1 = 1)) := by
      rw [H1]
      exact List.mem_singleton_self _
    have hq : ((1 : ℚ), w1) ∈ qpairs base := (List.mem_filter.mp hmem).1
    have h1 : (1 : ℚ) ∈ base.points.map fun p => p 0 :=
      (List.of_mem_zip hq).1
    rcases List.mem_map.mp h1 with ⟨p, hp, hp1⟩
    exact ⟨p, hp, by rw [hp1]; simp⟩

/-- C6: for a valid 1-D base rule (nonempty, weights summing to 1, at most
one sample at each end point) and any `n_copies ≥ 1`, the iterated rule is
constructed successfully and its weights again sum to exactly 1; and
whenever the merged weights of an attempted construction do not sum to 1,
the constructor fails with the sum-of-weights-not-one error instead of
producing a rule. -/
theorem qiterated_weight_sum_check (base : Quadrature 1) (n : Nat)
    (hn : 1 ≤ n) (hm : base.points ≠ [])
    (h0 : ((qpairs base).filter fun pw => decide (pw.1 = 0)).length ≤ 1)
    (h1 : ((qpairs base).filter fun pw => decide (pw.1 = 1)).length ≤ 1)
    (hs : base.weights.sum = 1) :
    (∃ q, QIterated1 base n = .ok q ∧ q.weights.sum = 1) ∧
    (∀ b : Quadrature 1, ∀ m : Nat, b.n_quadrature_points ≠ 0 → m ≠ 0 →
      ((iterPairs b m).map Prod.snd).sum ≠ 1 →
      QIterated1 b m = .error .weightSumMismatch) := by
  have hcond : ¬ (base.n_quadrature_points = 0 ∨ n = 0) := by
    rw [Quadrature.n_quadrature_points]
    simp [hm]
    omega
  have hsum : ((iterPairs base n).map Prod.snd).sum = 1 := by
    by_cases hub : uses_both_endpoints base = true
    · have hub' := hub
      rw [uses_both_endpoints, Bool.and_eq_true] at hub'
      rcases filter_singleton_of_any base 0 hub'.1 h0 with ⟨w0, H0⟩
      rcases filter_singleton_of_any base 1 hub'.2 h1 with ⟨w1, H1⟩
      rw [iterPairs_merged_sum base n w0 w1 hn hub H0 H1, hs]
    · have hub' : uses_both_endpoints base = false := by
        cases h : uses_both_endpoints base
        · rfl
        · exact absurd h hub
      rw [iterPairs_plain_sum base n hn hub', hs]
  constructor
  · refine ⟨{ points := (iterPairs base n).map fun pw _ => pw.1
              weights := (iterPairs base n).map Prod.snd
              h_len := by simp }, ?_, ?_⟩
    · rw [QIterated1, if_neg hcond, if_pos hsum]
    · exact hsum
  · intro b m hb hm' hsum'
    have hcond' : ¬ (b.n_quadrature_points = 0 ∨ m = 0) := by
      simp [hb, hm']
    rw [QIterated1, if_neg hcond', if_neg hsum']

/-- Witness for C6: two copies of the Simpson rule pass the weight-sum
check with total weight exactly 1. -/
theorem qiterated_weight_sum_check_witness :
    (∃ q, QIterated1 exSimpson 2 = .ok q ∧ q.weights.sum = 1) ∧
    (∀ b : Quadrature 1, ∀ m : Nat, b.n_quadrature_points ≠ 0 → m ≠ 0 →
      ((iterPairs b m).map Prod.snd).sum ≠ 1 →
      QIterated1 b m = .error .weightSumMismatch) :=
  qiterated_weight_sum_check exSimpson 2 (by decide)
    (by simp [exSimpson])
    (by norm_num [qpairs, exSimpson, List.filter])
    (by norm_num [qpairs, exSimpson, List.filter])
    (by norm_num [exSimpson])

/-- Helper: rebuilding the coordinate/weight pairs from the stored points
and weights of a constructed 1-D rule gives back the pair list. -/
theorem qpairs_reconstruct (pw : List (ℚ × ℚ)) :
    ((pw.map fun x => (fun _ => x.1 : Fin 1 → ℚ)).map fun p => p 0).zip
      (pw.map Prod.snd) = pw := by
  rw [List.map_map]
  have h1 : ((fun p : Fin 1 → ℚ => p 0) ∘
      fun x : ℚ × ℚ => (fun _ => x.1 : Fin 1 → ℚ)) =
      (Prod.fst : ℚ × ℚ → ℚ) := rfl
  rw [h1, List.zip_map']
  have h2 : ∀ a ∈ pw, ((a.1 : ℚ), (a.2 : ℚ)) = a := by
    intro a _
    exact @Prod.ext ℚ ℚ (a.1, a.2) a rfl rfl
  rw [List.map_congr_left h2, List.map_id']

/-- Helper: the filter of a merged copy at a result coordinate `c` is the
mapped filter of the kept base pairs at the base coordinate `c * n - j`. -/
theorem iterCopyMerged_filter (base : Quadrature 1) (n j : Nat) (c : ℚ)
    (hn0 : (n : ℚ) ≠ 0) :
    (iterCopyMerged base n j).filter (fun pw => decide (pw.1 = c)) =
      ((((qpairs base).filter fun pw => decide (j = 0 ∨ pw.1 ≠ 0)).filter
        fun pw => decide (pw.1 = c * (n : ℚ) - (j : ℚ))).map
        (fun pw => (((j : ℚ) + pw.1) / (n : ℚ),
          if pw.1 = 1 ∧ j + 1 < n then
            (pw.2 + leftWeight base) / (n : ℚ)
          else pw.2 / (n : ℚ)))) := by
  rw [iterCopyMerged, List.filter_map]
  congr 1
  apply List.filter_congr
  intro a _
  show decide (((j : ℚ) + a.1) / (n : ℚ) = c) =
    decide (a.1 = c * (n : ℚ) - (j : ℚ))
  rw [decide_eq_decide, div_eq_iff hn0]
  constructor
  · intro h
    linarith
  · intro h
    linarith

/-- Helper: no kept base pair sits at a coordinate outside `[0, 1]`. -/
theorem filter_out_of_range (base : Quadrature 1) (v : ℚ)
    (hb : ∀ pw ∈ qpairs base, 0 ≤ pw.1 ∧ pw.1 ≤ 1)
    (hv : v < 0 ∨ 1 < v) (P : ℚ × ℚ → Bool) :
    (((qpairs base).filter P).filter fun pw => decide (pw.1 = v)) = [] := by
  rw [List.filter_eq_nil_iff]
  intro a ha
  have ha' : a ∈ qpairs base := (List.mem_filter.mp ha).1
  have hba := hb a ha'
  simp only [decide_eq_true_eq]
  intro he
  rcases hv with hv | hv
  · rw [he] at hba
    linarith [hba.1]
  · rw [he] at hba
    linarith [hba.2]

/-- Helper: in a copy with a predecessor no kept pair sits at coordinate
0 — exactly those pairs were skipped. -/
theorem filter_left_skipped (base : Quadrature 1) (j : Nat) (hj : 0 < j) :
    (((qpairs base).filter fun pw => decide (j = 0 ∨ pw.1 ≠ 0)).filter
      fun pw => decide (pw.1 = 0)) = [] := by
  rw [iterFilter_pos base j hj, List.filter_filter, List.filter_eq_nil_iff]
  intro a _
  simp

/-- Helper: in the merged iterated rule the pair at an interior boundary
`k/n` is unique and carries the sum of the two contributing copies'
end-point weights. -/
theorem iterPairs_filter_interior (base : Quadrature 1) (n k : Nat)
    (w0 w1 : ℚ)
    (hb : ∀ pw ∈ qpairs base, 0 ≤ pw.1 ∧ pw.1 ≤ 1)
    (H0 : (qpairs base).filter (fun pw => decide (pw.1 = 0)) = [(0, w0)])
    (H1 : (qpairs base).filter (fun pw => decide (pw.1 = 1)) = [(1, w1)])
    (hk0 : 0 < k) (hkn : k < n) :
    (iterPairs base n).filter
      (fun pw => decide (pw.1 = (k : ℚ) / (n : ℚ))) =
      [((k : ℚ) / (n : ℚ), (w1 + w0) / (n : ℚ))] := by
  have hn0 : (n : ℚ) ≠ 0 := by
    have hn' : n ≠ 0 := by omega
    exact_mod_cast hn'
  have hcast : ((k - 1 : Nat) : ℚ) = (k : ℚ) - 1 := by
    have h1 : (1 : Nat) ≤ k := by omega
    push_cast [Nat.cast_sub h1]
    ring
  have hub := uses_both_of_filters base w0 w1 H0 H1
  rw [iterPairs, if_pos hub, List.filter_flatMap]
  have hempty : ∀ j, j < n → j ≠ k - 1 →
      (iterCopyMerged base n j).filter
        (fun pw => decide (pw.1 = (k : ℚ) / (n : ℚ))) = [] := by
    intro j hj hne
    rw [iterCopyMerged_filter base n j _ hn0]
    have hval : (k : ℚ) / (n : ℚ) * (n : ℚ) - (j : ℚ) =
        (k : ℚ) - (j : ℚ) := by
      rw [div_mul_cancel₀ _ hn0]
    simp only [hval]
    rcases Nat.lt_trichotomy j k with hlt | heq | hgt
    · have hj2 : j + 2 ≤ k := by omega
      have hv : 1 < (k : ℚ) - (j : ℚ) := by
        have hc : ((j : ℚ) + 2) ≤ (k : ℚ) := by exact_mod_cast hj2
        linarith
      rw [filter_out_of_range base _ hb (Or.inr hv) _]
      rfl
    · have hv : (k : ℚ) - (j : ℚ) = 0 := by
        rw [heq]
        ring
      simp only [hv]
      rw [filter_left_skipped base j (by omega)]
      rfl
    · have hv : (k : ℚ) - (j : ℚ) < 0 := by
        have hc : (k : ℚ) < (j : ℚ) := by exact_mod_cast hgt
        linarith
      rw [filter_out_of_range base _ hb (Or.inl hv) _]
      rfl
  rw [range_flatMap_single n (fun j => (iterCopyMerged base n j).filter
    (fun pw => decide (pw.1 = (k : ℚ) / (n : ℚ)))) (k - 1) (by omega)
    hempty]
  rw [iterCopyMerged_filter base n (k - 1) _ hn0]
  have hval : (k : ℚ) / (n : ℚ) * (n : ℚ) - ((k - 1 : Nat) : ℚ) = 1 := by
    rw [div_mul_cancel₀ _ hn0, hcast]
    ring
  simp only [hval]
  rw [iterFilter_right base (k - 1) w1 H1]
  show [((((k - 1 : Nat) : ℚ) + 1) / (n : ℚ),
      if (1 : ℚ) = 1 ∧ (k - 1) + 1 < n then
        (w1 + leftWeight base) / (n : ℚ)
      else w1 / (n : ℚ))] =
    [((k : ℚ) / (n : ℚ), (w1 + w0) / (n : ℚ))]
  have hcond : (1 : ℚ) = 1 ∧ (k - 1) + 1 < n := ⟨rfl, by omega⟩
  rw [if_pos hcond, leftWeight_eq base w0 H0]
  have hpt : (((k - 1 : Nat) : ℚ) + 1) / (n : ℚ) = (k : ℚ) / (n : ℚ) := by
    rw [hcast]
    ring
  rw [hpt]

/-- Helper: in the merged iterated rule the pair at the outer left boundary
0 is unique and keeps the single left-end weight (merged with nothing). -/
theorem iterPairs_filter_left (base : Quadrature 1) (n : Nat) (w0 w1 : ℚ)
    (hn : 1 ≤ n)
    (hb : ∀ pw ∈ qpairs base, 0 ≤ pw.1 ∧ pw.1 ≤ 1)
    (H0 : (qpairs base).filter (fun pw => decide (pw.1 = 0)) = [(0, w0)])
    (H1 : (qpairs base).filter (fun pw => decide (pw.1 = 1)) = [(1, w1)]) :
    (iterPairs base n).filter (fun pw => decide (pw.1 = 0)) =
      [(0, w0 / (n : ℚ))] := by
  have hn0 : (n : ℚ) ≠ 0 := by
    have hn' : n ≠ 0 := by omega
    exact_mod_cast hn'
  have hub := uses_both_of_filters base w0 w1 H0 H1
  rw [iterPairs, if_pos hub, List.filter_flatMap]
  have hempty : ∀ j, j < n → j ≠ 0 →
      (iterCopyMerged base n j).filter
        (fun pw => decide (pw.1 = 0)) = [] := by
    intro j hj hne
    rw [iterCopyMerged_filter base n j _ hn0]
    have hval : (0 : ℚ) * (n : ℚ) - (j : ℚ) = -(j : ℚ) := by ring
    simp only [hval]
    have hv : -(j : ℚ) < 0 := by
      have hc : (0 : ℚ) < (j : ℚ) := by
        exact_mod_cast Nat.pos_of_ne_zero hne
      linarith
    rw [filter_out_of_range base _ hb (Or.inl hv) _]
    rfl
  rw [range_flatMap_single n (fun j => (iterCopyMerged base n j).filter
    (fun pw => decide (pw.1 = 0))) 0 (by omega) hempty]
  rw [iterCopyMerged_filter base n 0 _ hn0]
  have hval : (0 : ℚ) * (n : ℚ) - ((0 : Nat) : ℚ) = 0 := by
    push_cast
    ring
  simp only [hval]
  have hfil : ((qpairs base).filter fun pw => decide (True ∨ pw.1 ≠ 0)) =
      qpairs base := by
    apply List.filter_eq_self.mpr
    intro a _
    simp
  rw [hfil, H0]
  show [((((0 : Nat) : ℚ) + (0 : ℚ)) / (n : ℚ),
      if (0 : ℚ) = 1 ∧ (0 : Nat) + 1 < n then
        (w0 + leftWeight base) / (n : ℚ)
      else w0 / (n : ℚ))] = [((0 : ℚ), w0 / (n : ℚ))]
  have hcond : ¬ ((0 : ℚ) = 1 ∧ (0 : Nat) + 1 < n) := by
    intro hc
    exact absurd hc.1 (by norm_num)
  rw [if_neg hcond]
  have hpt : (((0 : Nat) : ℚ) + (0 : ℚ)) / (n : ℚ) = 0 := by
    norm_num
  rw [hpt]

/-- Helper: in the merged iterated rule the pair at the outer right
boundary 1 is unique and keeps the single right-end weight (merged with
nothing). -/
theorem iterPairs_filter_right_outer (base : Quadrature 1) (n : Nat)
    (w0 w1 : ℚ) (hn : 1 ≤ n)
    (hb : ∀ pw ∈ qpairs base, 0 ≤ pw.1 ∧ pw.1 ≤ 1)
    (H0 : (qpairs base).filter (fun pw => decide (pw.1 = 0)) = [(0, w0)])
    (H1 : (qpairs base).filter (fun pw => decide (pw.1 = 1)) = [(1, w1)]) :
    (iterPairs base n).filter (fun pw => decide (pw.1 = 1)) =
      [(1, w1 / (n : ℚ))] := by
  have hn0 : (n : ℚ) ≠ 0 := by
    have hn' : n ≠ 0 := by omega
    exact_mod_cast hn'
  have hcast : ((n - 1 : Nat) : ℚ) = (n : ℚ) - 1 := by
    have h1 : (1 : Nat) ≤ n := by omega
    push_cast [Nat.cast_sub h1]
    ring
  have hub := uses_both_of_filters base w0 w1 H0 H1
  rw [iterPairs, if_pos hub, List.filter_flatMap]
  have hempty : ∀ j, j < n → j ≠ n - 1 →
      (iterCopyMerged base n j).filter
        (fun pw => decide (pw.1 = 1)) = [] := by
    intro j hj hne
    rw [iterCopyMerged_filter base n j _ hn0]
    have hval : (1 : ℚ) * (n : ℚ) - (j : ℚ) = (n : ℚ) - (j : ℚ) := by
      ring
    simp only [hval]
    have hj2 : j + 2 ≤ n := by omega
    have hv : 1 < (n : ℚ) - (j : ℚ) := by
      have hc : ((j : ℚ) + 2) ≤ (n : ℚ) := by exact_mod_cast hj2
      linarith
    rw [filter_out_of_range base _ hb (Or.inr hv) _]
    rfl
  rw [range_flatMap_single n (fun j => (iterCopyMerged base n j).filter
    (fun pw => decide (pw.1 = 1))) (n - 1) (by omega) hempty]
  rw [iterCopyMerged_filter base n (n - 1) _ hn0]
  have hval : (1 : ℚ) * (n : ℚ) - ((n - 1 : Nat) : ℚ) = 1 := by
    rw [hcast]
    ring
  simp only [hval]
  rw [iterFilter_right base (n - 1) w1 H1]
  show [((((n - 1 : Nat) : ℚ) + 1) / (n : ℚ),
      if (1 : ℚ) = 1 ∧ (n - 1) + 1 < n then
        (w1 + leftWeight base) / (n : ℚ)
      else w1 / (n : ℚ))] = [((1 : ℚ), w1 / (n : ℚ))]
  have hcond : ¬ ((1 : ℚ) = 1 ∧ (n - 1) + 1 < n) := by
    intro hc
    exact absurd hc.2 (by omega)
  rw [if_neg hcond]
  have hpt : (((n - 1 : Nat) : ℚ) + 1) / (n : ℚ) = 1 := by
    rw [hcast]
    field_simp
  rw [hpt]

/-- Helper: the coordinate/weight pairs of a rule built from a pair list
are that pair list. -/
theorem qpairs_mk (pw : List (ℚ × ℚ))
    (h : (pw.map fun x : ℚ × ℚ => (fun _ => x.1 : Fin 1 → ℚ)).length =
      (pw.map Prod.snd).length) :
    qpairs ⟨pw.map fun x : ℚ × ℚ => (fun _ => x.1 : Fin 1 → ℚ),
      pw.map Prod.snd, h⟩ = pw :=
  qpairs_reconstruct pw

/-- C2: iterating a base rule that samples both end points exactly once
each (with points inside `[0,1]` and unit weight sum) produces
`n * (base.n_points - 1) + 1` points; every interior boundary `k/n`
(`0 < k < n`) appears exactly once, with weight the sum of the two
contributing copies' end-point weights, while the outer boundary points 0
and 1 appear exactly once with their single copy's end-point weight,
merged with nothing. -/
theorem qiterated_endpoint_merging (base : Quadrature 1) (n : Nat)
    (w0 w1 : ℚ) (hn : 1 ≤ n)
    (hb : ∀ pw ∈ qpairs base, 0 ≤ pw.1 ∧ pw.1 ≤ 1)
    (H0 : (qpairs base).filter (fun pw => decide (pw.1 = 0)) = [(0, w0)])
    (H1 : (qpairs base).filter (fun pw => decide (pw.1 = 1)) = [(1, w1)])
    (hs : base.weights.sum = 1) :
    ∃ q, QIterated1 base n = .ok q ∧
      q.n_quadrature_points = n * (base.n_quadrature_points - 1) + 1 ∧
      (∀ k, 0 < k → k < n →
        (qpairs q).filter
          (fun pw => decide (pw.1 = (k : ℚ) / (n : ℚ))) =
          [((k : ℚ) / (n : ℚ), (w1 + w0) / (n : ℚ))]) ∧
      (qpairs q).filter (fun pw => decide (pw.1 = 0)) =
        [(0, w0 / (n : ℚ))] ∧
      (qpairs q).filter (fun pw => decide (pw.1 = 1)) =
        [(1, w1 / (n : ℚ))] := by
  have hub := uses_both_of_filters base w0 w1 H0 H1
  have hm : 1 ≤ base.n_quadrature_points := by
    have hmem : ((0 : ℚ), w0) ∈
        (qpairs base).filter (fun pw => decide (pw.1 = 0)) := by
      rw [H0]
      exact List.mem_singleton_self _
    have hq : ((0 : ℚ), w0) ∈ qpairs base := (List.mem_filter.mp hmem).1
    have hne := List.ne_nil_of_mem hq
    have hlen := List.length_pos.mpr hne
    rw [length_qpairs] at hlen
    omega
  have hcond : ¬ (base.n_quadrature_points = 0 ∨ n = 0) := by
    intro hc
    rcases hc with hc | hc
    · omega
    · omega
  have hsum : ((iterPairs base n).map Prod.snd).sum = 1 := by
    rw [iterPairs_merged_sum base n w0 w1 hn hub H0 H1, hs]
  refine ⟨{ points := (iterPairs base n).map fun pw _ => pw.1
            weights := (iterPairs base n).map Prod.snd
            h_len := by simp }, ?_, ?_, ?_, ?_, ?_⟩
  · rw [QIterated1, if_neg hcond, if_pos hsum]
  · show ((iterPairs base n).map fun pw _ => pw.1).length = _
    rw [List.length_map]
    exact iterPairs_merged_length base n w0 hn hm hub H0
  · intro k hk0 hkn
    rw [qpairs_mk]
    exact iterPairs_filter_interior base n k w0 w1 hb H0 H1 hk0 hkn
  · rw [qpairs_mk]
    exact iterPairs_filter_left base n w0 w1 hn hb H0 H1
  · rw [qpairs_mk]
    exact iterPairs_filter_right_outer base n w0 w1 hn hb H0 H1

/-- Witness for C2: two copies of the Simpson rule — five points, the
shared boundary 1/2 carrying the merged weight `1/6 + 1/6` scaled by 1/2,
and the outer boundaries keeping their single scaled weight. -/
theorem qiterated_endpoint_merging_witness :
    ∃ q, QIterated1 exSimpson 2 = .ok q ∧
      q.n_quadrature_points =
        2 * (exSimpson.n_quadrature_points - 1) + 1 ∧
      (∀ k : Nat, 0 < k → k < 2 →
        (qpairs q).filter
          (fun pw => decide (pw.1 = (k : ℚ) / ((2 : Nat) : ℚ))) =
          [((k : ℚ) / ((2 : Nat) : ℚ),
            ((1 : ℚ)/6 + (1 : ℚ)/6) / ((2 : Nat) : ℚ))]) ∧
      (qpairs q).filter (fun pw => decide (pw.1 = 0)) =
        [(0, ((1 : ℚ)/6) / ((2 : Nat) : ℚ))] ∧
      (qpairs q).filter (fun pw => decide (pw.1 = 1)) =
        [(1, ((1 : ℚ)/6) / ((2 : Nat) : ℚ))] :=
  qiterated_endpoint_merging exSimpson 2 (1/6) (1/6) (by decide)
    (by
      intro pw hpw
      simp [qpairs, exSimpson] at hpw
      rcases hpw with h | h | h <;> subst h <;> norm_num)
    (by norm_num [qpairs, exSimpson, List.filter])
    (by norm_num [qpairs, exSimpson, List.filter])
    (by norm_num [exSimpson])
